import Mathlib

/-!
Shallow embedding of the twoskip read-only database decoder
(`src/twoskip.rs`): header decoding, record framing, skip-list lookup
(`Db::get`) and sequential iteration (`DbIter::next` / `Db::dump`).

Bytes are modelled as `Nat` values (< 256 in any real buffer) and the
memory-mapped file as a `List Nat`.  Every raw-pointer read of the Rust
code is modelled as a bounds-aware read: a read past the end of the
buffer yields the distinguished outcome `oobRead` (the Rust code performs
undefined out-of-bounds memory access there), and the two `panic` sites of
the Rust code (`RecordType::from` on an unrecognized tag byte, and the
`unwrap` in `DbIter::next`) are modelled as distinguished abort outcomes,
kept separate from the typed `Error` values the code returns.
-/

set_option maxRecDepth 100000

namespace Twoskip

/-- The `Error` enum of the source (file `twoskip.rs`, lines 116-124).
`InternalError` wraps I/O failures, which cannot arise in the pure
byte-buffer model, so it is omitted. -/
inductive Err where
  | invalidFileSize
  | invalidHeaderMagic
  | versionMismatch
  | checksumMismatch
  | invalidLevel
deriving DecidableEq, Repr

/-- The `RecordType` enum of the source. -/
inductive RecordType where
  | dummy
  | record
  | delete
  | commit
deriving DecidableEq, Repr

/-- The `Record` struct of the source (minus the `db` back-reference;
key/value bytes are read from the buffer via `recKey` / `recVal`). -/
structure Rec where
  offset : Nat
  len : Nat
  typ : RecordType
  level : Nat
  keyLen : Nat
  valLen : Nat
  nextLoc : List Nat
  crc32Head : Nat
  crc32Tail : Nat
  keyOffset : Nat
  valOffset : Nat
deriving DecidableEq, Repr

instance : Inhabited Rec :=
  ⟨⟨0, 0, RecordType.dummy, 0, 0, 0, [], 0, 0, 0, 0⟩⟩

/-- Outcome of `Db::record_at`: a decoded record, a typed error returned
to the caller, a process abort from the `panic!` in `RecordType::from`,
or an unchecked out-of-bounds read (undefined behaviour in the source). -/
inductive RecResult where
  | ok (r : Rec)
  | err (e : Err)
  | panicUnknownType (b : Nat)
  | oobRead
deriving DecidableEq, Repr

/-- Outcome of `Db::get`. -/
inductive GetOutcome where
  | found (r : Rec)
  | notFound
  | err (e : Err)
  | panicUnknownType (b : Nat)
  | oobRead
deriving DecidableEq, Repr

/-- Outcome of running the iterator `DbIter` to exhaustion: the yielded
records, or the abort raised by the `unwrap` on a decode error. -/
inductive ScanOutcome where
  | items (rs : List Rec)
  | panicDecode (e : Err)
  | panicUnknownType (b : Nat)
  | oobRead
deriving DecidableEq, Repr

/-- Outcome of a single `DbIter::next` call. -/
inductive IterStep where
  | yieldRec (r : Rec) (newOff : Nat)
  | done
  | panicDecode (e : Err)
  | panicUnknownType (b : Nat)
  | oobRead
deriving DecidableEq, Repr

/-- The `Header` struct of the source. -/
structure Header where
  version : Nat
  flags : Nat
  generation : Nat
  numRecords : Nat
  repackSize : Nat
  currentSize : Nat
deriving DecidableEq, Repr

/-- `n` bytes of the buffer starting at `off` (truncating at the end). -/
def slice (buf : List Nat) (off n : Nat) : List Nat :=
  (buf.drop off).take n

/-- Bounds-checked read of `n` bytes at `off`. -/
def readBytes (buf : List Nat) (off n : Nat) : Option (List Nat) :=
  if off + n ≤ buf.length then some (slice buf off n) else none

/-- Big-endian value of a byte list (`byteorder::BigEndian` reads). -/
def beVal (l : List Nat) : Nat :=
  l.foldl (fun a b => a * 256 + b) 0

/-- Bounds-checked big-endian read of an `n`-byte integer at `off`. -/
def readBE (buf : List Nat) (off n : Nat) : Option Nat :=
  (readBytes buf off n).map beVal

/-- Total big-endian read (used only where a preceding bounds check of the
source guarantees the span is inside the buffer). -/
def beValD (buf : List Nat) (off n : Nat) : Nat :=
  beVal (slice buf off n)

/-- Big-endian encoding of `v` into `n` bytes (for building test buffers). -/
def beEnc : Nat → Nat → List Nat
  | 0, _ => []
  | n + 1, v => beEnc n (v / 256) ++ [v % 256]

/-- Reflected polynomial of CRC-32/ISO-HDLC (`crc::CRC_32_ISO_HDLC`). -/
def crcPoly : Nat := 0xEDB88320

/-- One bit step of the reflected CRC-32 computation. -/
def crcStep (c : Nat) : Nat :=
  if c % 2 = 1 then (c / 2) ^^^ crcPoly else c / 2

/-- Fold one byte into the CRC state (eight bit steps). -/
def crcByte (c b : Nat) : Nat :=
  crcStep (crcStep (crcStep (crcStep (crcStep (crcStep (crcStep (crcStep (c ^^^ (b % 256)))))))))

/-- CRC-32/ISO-HDLC checksum of a byte list, as computed by
`CRC32.checksum` in the source. -/
def crc32 (l : List Nat) : Nat :=
  (l.foldl crcByte 0xFFFFFFFF) ^^^ 0xFFFFFFFF

/-- `HEADER_MAGIC`: `"\xa1\x02\x8b\x0dtwoskip file\x00\x00\x00\x00"`. -/
def headerMagic : List Nat :=
  [0xa1, 0x02, 0x8b, 0x0d, 116, 119, 111, 115, 107, 105, 112, 32,
   102, 105, 108, 101, 0, 0, 0, 0]

/-- `BLANK`: `" BLANK\x07\xa0"`. -/
def blankBytes : List Nat := [32, 66, 76, 65, 78, 75, 7, 160]

/-- `MAX_LEVEL` (31). -/
def maxLevel : Nat := 31

/-- `START_OFFSET` = `HEADER_SIZE` = 64. -/
def startOffset : Nat := 64

/-- `read_header` of the source: validates length, magic, version and the
header checksum over bytes `[0, 60)`, then returns the parsed header.
All reads are within the first 64 bytes, so after the initial length
check they cannot go out of bounds. -/
def readHeader (buf : List Nat) : Except Err Header :=
  if buf.length < 64 then Except.error Err.invalidFileSize
  else if slice buf 0 20 ≠ headerMagic then Except.error Err.invalidHeaderMagic
  else if beValD buf 20 4 ≠ 1 then Except.error Err.versionMismatch
  else if beValD buf 60 4 ≠ crc32 (slice buf 0 60) then Except.error Err.checksumMismatch
  else Except.ok
    { version := beValD buf 20 4
      flags := 0
      generation := beValD buf 24 8
      numRecords := beValD buf 32 8
      repackSize := beValD buf 40 8
      currentSize := beValD buf 48 8 }

/-- `round_up` of the source, at type `Nat`. -/
def roundUp (n m : Nat) : Nat :=
  if n % m = 0 then n else n + m - n % m

/-- `RecordType::from` of the source: the four recognized tag bytes
`'='`, `'+'`, `'-'`, `'$'`; `none` marks the `panic!` arm. -/
def recordTypeFrom (c : Nat) : Option RecordType :=
  if c = 61 then some RecordType.dummy
  else if c = 43 then some RecordType.record
  else if c = 45 then some RecordType.delete
  else if c = 36 then some RecordType.commit
  else none

/-- The `Record` value built at the end of `Db::record_at`, given the
decoded level, lengths and framing-header length `hl` (`next - offset`
after the length fields). -/
def recBuild (buf : List Nat) (offset level keyLen valLen hl : Nat) (t : RecordType) : Rec :=
  ⟨offset,
   hl + 8 * (level + 1) + 8 + roundUp (keyLen + valLen) 8,
   t, level, keyLen, valLen,
   (List.range (level + 1)).map (fun i => beValD buf (offset + hl + 8 * i) 8),
   beValD buf (offset + hl + 8 * (level + 1)) 4,
   beValD buf (offset + hl + 8 * (level + 1) + 4) 4,
   offset + hl + 8 * (level + 1) + 8,
   offset + hl + 8 * (level + 1) + 8 + keyLen⟩

/-- `Db::record_at`: decode one record at `offset`.  The reads of the
tag, level and length fields mirror the source's unchecked raw-pointer
reads and therefore produce `oobRead` when they cross the end of the
buffer; the single `InvalidFileSize` bounds check of the source happens
after those framing reads and before the pointer-table, checksum and
payload reads (which are then provably in bounds and use total reads). -/
def recordAt (buf : List Nat) (offset : Nat) : RecResult :=
  match readBE buf offset 1 with
  | none => RecResult.oobRead
  | some rawType =>
    match readBE buf (offset + 1) 1 with
    | none => RecResult.oobRead
    | some level =>
      if 31 < level then RecResult.err Err.invalidLevel
      else
        match readBE buf (offset + 2) 2 with
        | none => RecResult.oobRead
        | some kl0 =>
          match readBE buf (offset + 4) 4 with
          | none => RecResult.oobRead
          | some vl0 =>
            match (if kl0 = 65535 then readBE buf (offset + 8) 8 else some kl0) with
            | none => RecResult.oobRead
            | some keyLen =>
              match (if vl0 = 4294967295 then
                  readBE buf (offset + 8 + (if kl0 = 65535 then 8 else 0)) 8
                else some vl0) with
              | none => RecResult.oobRead
              | some valLen =>
                if buf.length < offset + (8 + (if kl0 = 65535 then 8 else 0) +
                    (if vl0 = 4294967295 then 8 else 0) + 8 * (level + 1) + 8 +
                    roundUp (keyLen + valLen) 8) then
                  RecResult.err Err.invalidFileSize
                else if beValD buf (offset + (8 + (if kl0 = 65535 then 8 else 0) +
                      (if vl0 = 4294967295 then 8 else 0)) + 8 * (level + 1)) 4 ≠
                    crc32 (slice buf offset (8 + (if kl0 = 65535 then 8 else 0) +
                      (if vl0 = 4294967295 then 8 else 0) + 8 * (level + 1))) then
                  RecResult.err Err.checksumMismatch
                else
                  match recordTypeFrom rawType with
                  | some t => RecResult.ok (recBuild buf offset level keyLen valLen
                      (8 + (if kl0 = 65535 then 8 else 0) +
                        (if vl0 = 4294967295 then 8 else 0)) t)
                  | none => RecResult.panicUnknownType rawType

/-- `Record::key`: the `key_len` bytes at `key_offset`. -/
def recKey (buf : List Nat) (r : Rec) : List Nat :=
  slice buf r.keyOffset r.keyLen

/-- `Record::value`: the `val_len` bytes at `val_offset`. -/
def recVal (buf : List Nat) (r : Rec) : List Nat :=
  slice buf r.valOffset r.valLen

/-- Byte-wise lexicographic comparison, as `key.cmp(next.key())` on
`&[u8]` slices in the source. -/
def lexCmp : List Nat → List Nat → Ordering
  | [], [] => Ordering.eq
  | [], _ :: _ => Ordering.lt
  | _ :: _, [] => Ordering.gt
  | a :: as, b :: bs =>
    if a < b then Ordering.lt
    else if b < a then Ordering.gt
    else lexCmp as bs

/-- The inner `while` loop of `Db::get`: starting at `level`, scan
downward while `next_loc[level] == 0`; return the level at which a
non-zero pointer was found together with that pointer, or `(0, 0)`. -/
def findPtr (nl : List Nat) : Nat → Nat × Nat
  | 0 => (0, 0)
  | l + 1 =>
    if nl.getD (l + 1) 0 = 0 then findPtr nl l
    else (l + 1, nl.getD (l + 1) 0)

/-- The outer `loop` of `Db::get`, with explicit fuel; `none` means the
fuel ran out (the Rust loop has no termination guarantee of its own). -/
def getLoop (buf key : List Nat) : Nat → Rec → Nat → Option GetOutcome
  | 0, _, _ => none
  | fuel + 1, r, level =>
    match findPtr r.nextLoc level with
    | (l, off) =>
      if l = 0 ∨ off = 0 then some GetOutcome.notFound
      else
        match recordAt buf off with
        | RecResult.ok next =>
          match lexCmp key (recKey buf next) with
          | Ordering.eq => some (GetOutcome.found next)
          | Ordering.lt =>
            if l - 1 = 0 then some GetOutcome.notFound
            else getLoop buf key fuel r (l - 1)
          | Ordering.gt => getLoop buf key fuel next next.level
        | RecResult.err e => some (GetOutcome.err e)
        | RecResult.panicUnknownType b => some (GetOutcome.panicUnknownType b)
        | RecResult.oobRead => some GetOutcome.oobRead

/-- `Db::get`: decode the head record at `START_OFFSET` and run the
traversal loop with the given fuel. -/
def getFuel (buf key : List Nat) (fuel : Nat) : Option GetOutcome :=
  match recordAt buf startOffset with
  | RecResult.ok r => getLoop buf key fuel r r.level
  | RecResult.err e => some (GetOutcome.err e)
  | RecResult.panicUnknownType b => some (GetOutcome.panicUnknownType b)
  | RecResult.oobRead => some GetOutcome.oobRead

/-- `Db::get` is said to terminate on `(buf, key)` when some finite fuel
makes the traversal loop return. -/
def GetTerminates (buf key : List Nat) : Prop :=
  ∃ fuel, getFuel buf key fuel ≠ none

/-- Prepend a yielded record to a scan outcome. -/
def consOut (r : Rec) : ScanOutcome → ScanOutcome
  | ScanOutcome.items rs => ScanOutcome.items (r :: rs)
  | o => o

/-- Running `DbIter` to exhaustion from `off` while `off < cur`
(`cur` = `header.current_size`), with explicit fuel: skip 8 bytes on the
`BLANK` sentinel, otherwise decode a record, yield it and advance by its
`total_len`.  A decode failure hits the source's `unwrap` and aborts. -/
def scanFuel (buf : List Nat) (cur : Nat) : Nat → Nat → Option ScanOutcome
  | 0, _ => none
  | fuel + 1, off =>
    if off < cur then
      match readBytes buf off 8 with
      | none => some ScanOutcome.oobRead
      | some w =>
        if w = blankBytes then scanFuel buf cur fuel (off + 8)
        else
          match recordAt buf off with
          | RecResult.ok r => (scanFuel buf cur fuel (off + r.len)).map (consOut r)
          | RecResult.err e => some (ScanOutcome.panicDecode e)
          | RecResult.panicUnknownType b => some (ScanOutcome.panicUnknownType b)
          | RecResult.oobRead => some ScanOutcome.oobRead
    else some (ScanOutcome.items [])

/-- A single `DbIter::next` call at offset `off` (with fuel for the
blank-skipping self-recursion). -/
def iterNextF (buf : List Nat) (cur : Nat) : Nat → Nat → Option IterStep
  | 0, _ => none
  | fuel + 1, off =>
    if off < cur then
      match readBytes buf off 8 with
      | none => some IterStep.oobRead
      | some w =>
        if w = blankBytes then iterNextF buf cur fuel (off + 8)
        else
          match recordAt buf off with
          | RecResult.ok r => some (IterStep.yieldRec r (off + r.len))
          | RecResult.err e => some (IterStep.panicDecode e)
          | RecResult.panicUnknownType b => some (IterStep.panicUnknownType b)
          | RecResult.oobRead => some IterStep.oobRead
    else some IterStep.done

/-- Length of the variable-width framing header of a record at `off`
(`next - offset` in the source after the tag, level and length fields):
8 bytes, plus 8 for each length field that uses the extended encoding. -/
def hlenAt (buf : List Nat) (off : Nat) : Nat :=
  8 + (if beValD buf (off + 2) 2 = 65535 then 8 else 0) +
    (if beValD buf (off + 4) 4 = 4294967295 then 8 else 0)

/-- Offset of the first record of `suffix` whose level is at least `l`,
or 0 when there is none: the value a well-formed level-`l` forward
pointer must hold. -/
def succOffset (suffix : List Rec) (l : Nat) : Nat :=
  match suffix.find? (fun x => decide (l ≤ x.level)) with
  | some x => x.offset
  | none => 0

/-- A decoded skip-list structure over `buf`: `h` is the head record at
offset 64, and `cs` lists the data records in strictly increasing key
order; every record decodes, data records have level in `1..=31` and a
non-zero offset, and each level-`l` forward pointer (`1 ≤ l`) of the head
and of every data record holds the offset of the next data record of
level ≥ `l` (0 when there is none). -/
def SkipWF (buf : List Nat) (h : Rec) (cs : List Rec) : Prop :=
  recordAt buf startOffset = RecResult.ok h ∧
  h.typ = RecordType.dummy ∧
  (cs ≠ [] → 1 ≤ h.level) ∧
  (∀ c ∈ cs, recordAt buf c.offset = RecResult.ok c ∧ c.typ = RecordType.record ∧
    1 ≤ c.level ∧ c.offset ≠ 0) ∧
  List.Pairwise (fun a b => lexCmp (recKey buf a) (recKey buf b) = Ordering.lt) cs ∧
  (∀ l < 32, 1 ≤ l → l ≤ h.level → h.nextLoc.getD l 0 = succOffset cs l) ∧
  (∀ i < cs.length, ∀ l < 32, 1 ≤ l → l ≤ (cs.getD i default).level →
    (cs.getD i default).nextLoc.getD l 0 = succOffset (cs.drop (i + 1)) l)

/-- Decidable check that the record decoded at `off` (if any) has all its
non-zero forward pointers aimed strictly past `off`. -/
def progAtB (buf : List Nat) (off : Nat) : Bool :=
  match recordAt buf off with
  | RecResult.ok r => r.nextLoc.all (fun p => decide (p = 0 ∨ off < p))
  | _ => true

/-- A buffer is progressive when every decodable record's non-zero
forward pointers point strictly forward; real append-only twoskip files
are progressive for the head chain reachable in bounds. -/
def Progressive (buf : List Nat) : Prop :=
  ∀ off < buf.length, progAtB buf off = true

/-- Spec-side reference for lookup (the sequential scan as oracle): the
first record of the list whose key equals `k`, as a `get` outcome. -/
def lookupRes (buf k : List Nat) (suffix : List Rec) : GetOutcome :=
  match suffix.find? (fun c => decide (recKey buf c = k)) with
  | some c => GetOutcome.found c
  | none => GetOutcome.notFound

/-! ### Concrete fixture buffers (with checksums computed by `crc32`) -/

/-- A 64-byte header with the given generation, record count, repack and
current sizes, version 1 and a correct checksum. -/
def mkHeaderBytes (gen num rep cur : Nat) : List Nat :=
  let pre := headerMagic ++ beEnc 4 1 ++ beEnc 8 gen ++ beEnc 8 num ++
    beEnc 8 rep ++ beEnc 8 cur ++ beEnc 4 0
  pre ++ beEnc 4 (crc32 pre)

/-- Framed record bytes: tag, level, compact lengths, pointer table,
correct head checksum, zero tail checksum, payload and padding. -/
def mkRecBytes (tag level : Nat) (ptrs : List Nat) (key val : List Nat) : List Nat :=
  let pre := [tag, level] ++ beEnc 2 key.length ++ beEnc 4 val.length ++
    (ptrs.map (beEnc 8)).flatten
  pre ++ beEnc 4 (crc32 pre) ++ beEnc 4 0 ++ key ++ val ++
    List.replicate (roundUp (key.length + val.length) 8 - (key.length + val.length)) 0

/-- A well-formed one-key database: head dummy record at 64 whose level-0
and level-1 pointers reach the data record at 96 with key `[97]`,
value `[98]`. -/
def dbGood : List Nat :=
  mkHeaderBytes 1 1 136 136 ++ mkRecBytes 61 1 [96, 96] [] [] ++ mkRecBytes 43 1 [0, 0] [97] [98]

/-- The decoded head record of `dbGood`. -/
def hGood : Rec :=
  ⟨64, 32, RecordType.dummy, 1, 0, 0, [96, 96], crc32 (slice dbGood 64 24), 0, 96, 96⟩

/-- The decoded data record of `dbGood`. -/
def rGood : Rec :=
  ⟨96, 40, RecordType.record, 1, 1, 1, [0, 0], crc32 (slice dbGood 96 24), 0, 128, 129⟩

/-- A buffer whose records all decode, but whose head record's forward
pointers are all zero, so the data record at 96 (key `[97]`) is invisible
to the skip-list traversal while the sequential scan still yields it. -/
def dbCex : List Nat :=
  mkHeaderBytes 1 1 136 136 ++ mkRecBytes 61 1 [0, 0] [] [] ++ mkRecBytes 43 1 [0, 0] [97] [98]

/-- The decoded head record of `dbCex`. -/
def hCex : Rec :=
  ⟨64, 32, RecordType.dummy, 1, 0, 0, [0, 0], crc32 (slice dbCex 64 24), 0, 96, 96⟩

/-- The decoded data record of `dbCex`. -/
def rCex : Rec :=
  ⟨96, 40, RecordType.record, 1, 1, 1, [0, 0], crc32 (slice dbCex 96 24), 0, 128, 129⟩

/-- An adversarial buffer whose head record (key `[97]`) has its level-1
forward pointer aimed back at itself (offset 64). -/
def bCycle : List Nat :=
  mkHeaderBytes 1 1 104 104 ++ mkRecBytes 61 1 [64, 64] [97] []

/-- The decoded self-referential head record of `bCycle`. -/
def hCyc : Rec :=
  ⟨64, 40, RecordType.dummy, 1, 1, 0, [64, 64], crc32 (slice bCycle 64 24), 0, 96, 97⟩

/-- A syntactically valid record (level 0, empty payload, correct head
checksum) whose tag byte is `0x78` (`'x'`), not one of the four
recognized tags. -/
def bUnknownTag : List Nat := mkRecBytes 120 0 [0] [] []

/-- A buffer whose first data record has level byte 32 (> `MAX_LEVEL`),
making `record_at` fail with `InvalidLevel` during iteration. -/
def bBadLevel : List Nat := mkHeaderBytes 1 1 72 72 ++ [43, 32, 0, 0, 0, 0, 0, 0]

/-- Framing prefix of a record using the `0xFFFF` extended-key-length
encoding: tag `'+'`, level 0, compact key length `0xFFFF`, compact value
length 1, extended key length 1 (8 bytes), one zero pointer. -/
def bExtPre : List Nat := [43, 0, 255, 255] ++ beEnc 4 1 ++ beEnc 8 1 ++ beEnc 8 0

/-- A complete record using the extended key-length encoding. -/
def bExt : List Nat :=
  bExtPre ++ beEnc 4 (crc32 bExtPre) ++ beEnc 4 0 ++ [97, 98] ++ List.replicate 6 0

/-- The decoded record of `bExt`. -/
def rExt : Rec :=
  ⟨0, 40, RecordType.record, 0, 1, 1, [0], crc32 bExtPre, 0, 32, 33⟩

/-- A valid 64-byte header buffer with distinctive field values. -/
def hdrEx : List Nat := mkHeaderBytes 5 7 100 200

/-! ### Helper lemmas -/

/-- Known-answer anchor: `crc32` is CRC-32/ISO-HDLC — its value on the
standard test vector `"123456789"` is the published check value. -/
theorem crc32_check_value : crc32 [49, 50, 51, 52, 53, 54, 55, 56, 57] = 0xCBF43926 := by
  decide

theorem readBE_eq_some {buf : List Nat} {off n v : Nat} (h : readBE buf off n = some v) :
    off + n ≤ buf.length ∧ v = beValD buf off n := by
  simp only [readBE, readBytes] at h
  split at h
  · simp only [Option.map_some'] at h
    exact ⟨by assumption, by injection h with h'; exact h'.symm⟩
  · simp at h

/-- Arithmetic facts about `round_up` to a multiple of 8. -/
theorem roundUp_eight (n : Nat) :
    roundUp n 8 % 8 = 0 ∧ n ≤ roundUp n 8 ∧
    (n % 8 = 0 → roundUp n 8 = n) ∧
    (n % 8 ≠ 0 → roundUp n 8 = n + (8 - n % 8) ∧ roundUp n 8 < n + 8) := by
  unfold roundUp
  by_cases hn : n % 8 = 0
  · rw [if_pos hn]
    exact ⟨hn, le_refl n, fun _ => rfl, fun hc => absurd hn hc⟩
  · rw [if_neg hn]
    have h8 : n % 8 < 8 := Nat.mod_lt _ (by omega)
    refine ⟨?_, by omega, fun hc => absurd hc hn, fun _ => ⟨by omega, by omega⟩⟩
    omega

/-- The framing-header length is always 8, 16 or 24, a multiple of 8. -/
theorem hlenAt_mod_eight (buf : List Nat) (off : Nat) : hlenAt buf off % 8 = 0 := by
  unfold hlenAt
  split <;> split <;> simp

/-- Full inversion of a successful `record_at` decode: every field of the
returned record in terms of the buffer bytes, together with the bounds
fact established by the `InvalidFileSize` check. -/
theorem recordAt_ok_inv {buf : List Nat} {off : Nat} {r : Rec}
    (h : recordAt buf off = RecResult.ok r) :
    r.offset = off ∧ r.level ≤ 31 ∧ r.level = beValD buf (off + 1) 1 ∧
    ((beValD buf (off + 2) 2 = 65535 → r.keyLen = beValD buf (off + 8) 8) ∧
     (beValD buf (off + 2) 2 ≠ 65535 → r.keyLen = beValD buf (off + 2) 2)) ∧
    ((beValD buf (off + 4) 4 = 4294967295 →
       r.valLen = beValD buf (off + 8 + (if beValD buf (off + 2) 2 = 65535 then 8 else 0)) 8) ∧
     (beValD buf (off + 4) 4 ≠ 4294967295 → r.valLen = beValD buf (off + 4) 4)) ∧
    r.len = hlenAt buf off + 8 * (r.level + 1) + 8 + roundUp (r.keyLen + r.valLen) 8 ∧
    off + r.len ≤ buf.length ∧
    r.keyOffset = off + hlenAt buf off + 8 * (r.level + 1) + 8 ∧
    r.valOffset = r.keyOffset + r.keyLen ∧
    r.nextLoc = (List.range (r.level + 1)).map
      (fun i => beValD buf (off + hlenAt buf off + 8 * i) 8) := by
  unfold recordAt at h
  split at h
  · simp at h
  next rawType hr0 =>
  split at h
  · simp at h
  next level hr1 =>
  split at h
  · simp at h
  next hlev =>
  split at h
  · simp at h
  next kl0 hr2 =>
  split at h
  · simp at h
  next vl0 hr3 =>
  split at h
  · simp at h
  next keyLen hr4 =>
  split at h
  · simp at h
  next valLen hr5 =>
  obtain rfl : kl0 = beValD buf (off + 2) 2 := (readBE_eq_some hr2).2
  obtain rfl : vl0 = beValD buf (off + 4) 4 := (readBE_eq_some hr3).2
  obtain rfl : level = beValD buf (off + 1) 1 := (readBE_eq_some hr1).2
  by_cases hk : beValD buf (off + 2) 2 = 65535 <;>
    by_cases hv : beValD buf (off + 4) 4 = 4294967295 <;>
    simp only [hk, hv, if_pos, if_neg, if_true, if_false, eq_self_iff_true,
      not_false_iff, ite_true, ite_false] at h hr4 hr5
  all_goals (
    split at h
    · simp at h
    next hbound =>
    split at h
    next hcrc => simp at h
    next hcrc =>
    split at h
    next t htag =>
      injection h with h
      subst h
      refine ⟨rfl, by simp only [recBuild]; omega, rfl, ⟨?_, ?_⟩, ⟨?_, ?_⟩, ?_, ?_, ?_, ?_, ?_⟩
      · intro hs
        first
        | exact absurd hs hk
        | (simp only [recBuild]
           exact (readBE_eq_some hr4).2)
      · intro hs
        first
        | exact absurd hk hs
        | (injection hr4 with h4
           simp only [recBuild]
           exact h4.symm)
      · intro hs
        first
        | exact absurd hs hv
        | (first
            | rw [if_pos hk]
            | rw [if_neg hk]
           simp only [recBuild]
           simpa using (readBE_eq_some hr5).2)
      · intro hs
        first
        | exact absurd hv hs
        | (injection hr5 with h5
           simp only [recBuild]
           exact h5.symm)
      · simp [recBuild, hlenAt, hk, hv]
      · simp only [recBuild, hlenAt, hk, hv, if_true, if_false, eq_self_iff_true,
          not_false_iff, ite_true, ite_false]
        omega
      · simp [recBuild, hlenAt, hk, hv]
      · simp [recBuild]
      · simp [recBuild, hlenAt, hk, hv]
    next htag => simp at h)

/-! ### Claim theorems: header decoding -/

/-- Claim C5: for a buffer of at least 64 bytes, header decoding succeeds
iff the first 20 bytes equal the magic, the big-endian u32 at offset 20
equals 1, and the big-endian u32 at offset 60 equals the CRC-32
(ISO-HDLC) of bytes `[0, 60)`; the respective failures are
`InvalidHeaderMagic`, `VersionMismatch` and `ChecksumMismatch`; a shorter
buffer fails with `InvalidFileSize`; on success the header carries the
big-endian u64 fields at offsets 24, 32, 40 and 48. -/
theorem readHeader_spec (buf : List Nat) :
    (buf.length < 64 → readHeader buf = Except.error Err.invalidFileSize) ∧
    (64 ≤ buf.length →
      ((∃ hdr, readHeader buf = Except.ok hdr) ↔
        (slice buf 0 20 = headerMagic ∧ beValD buf 20 4 = 1 ∧
          beValD buf 60 4 = crc32 (slice buf 0 60))) ∧
      (slice buf 0 20 ≠ headerMagic →
        readHeader buf = Except.error Err.invalidHeaderMagic) ∧
      (slice buf 0 20 = headerMagic → beValD buf 20 4 ≠ 1 →
        readHeader buf = Except.error Err.versionMismatch) ∧
      (slice buf 0 20 = headerMagic → beValD buf 20 4 = 1 →
        beValD buf 60 4 ≠ crc32 (slice buf 0 60) →
        readHeader buf = Except.error Err.checksumMismatch) ∧
      (∀ hdr, readHeader buf = Except.ok hdr →
        hdr.version = 1 ∧ hdr.generation = beValD buf 24 8 ∧
        hdr.numRecords = beValD buf 32 8 ∧ hdr.repackSize = beValD buf 40 8 ∧
        hdr.currentSize = beValD buf 48 8)) := by
  constructor
  · intro hlen
    simp [readHeader, hlen]
  · intro hlen
    have hnot : ¬ buf.length < 64 := by omega
    by_cases hm : slice buf 0 20 = headerMagic
    · by_cases hver : beValD buf 20 4 = 1
      · by_cases hcrc : beValD buf 60 4 = crc32 (slice buf 0 60)
        · refine ⟨?_, ?_, ?_, ?_, ?_⟩
          · simp [readHeader, hnot, hm, hver, hcrc]
          · intro hm'; exact absurd hm hm'
          · intro _ hv'; exact absurd hver hv'
          · intro _ _ hc'; exact absurd hcrc hc'
          · intro hdr hok
            simp only [readHeader, if_neg hnot] at hok
            rw [if_neg (not_not_intro hm), if_neg (not_not_intro hver),
              if_neg (not_not_intro hcrc)] at hok
            injection hok with hok
            subst hok
            exact ⟨hver, rfl, rfl, rfl, rfl⟩
        · refine ⟨?_, ?_, ?_, ?_, ?_⟩
          · simp [readHeader, hnot, hm, hver, hcrc]
          · intro hm'; exact absurd hm hm'
          · intro _ hv'; exact absurd hver hv'
          · intro _ _ _; simp [readHeader, hnot, hm, hver, hcrc]
          · intro hdr hok
            simp [readHeader, hnot, hm, hver, hcrc] at hok
      · refine ⟨?_, ?_, ?_, ?_, ?_⟩
        · simp [readHeader, hnot, hm, hver]
        · intro hm'; exact absurd hm hm'
        · intro _ _; simp [readHeader, hnot, hm, hver]
        · intro _ hv _; exact absurd hv hver
        · intro hdr hok
          simp [readHeader, hnot, hm, hver] at hok
    · refine ⟨?_, ?_, ?_, ?_, ?_⟩
      · simp [readHeader, hnot, hm]
      · intro _; simp [readHeader, hnot, hm]
      · intro hm' _; exact absurd hm' hm
      · intro hm' _ _; exact absurd hm' hm
      · intro hdr hok
        simp [readHeader, hnot, hm] at hok

/-- Witness for C5: the all-zero 10-byte buffer is rejected as too
short, and the concrete valid header `hdrEx` decodes successfully. -/
theorem readHeader_spec_witness :
    readHeader (List.replicate 10 0) = Except.error Err.invalidFileSize ∧
    (∃ hdr, readHeader hdrEx = Except.ok hdr) := by
  constructor
  · exact (readHeader_spec (List.replicate 10 0)).1 (by decide)
  · refine ((readHeader_spec hdrEx).2 (by decide)).1.mpr ⟨by decide, by decide, ?_⟩
    simp [hdrEx, mkHeaderBytes, headerMagic, beEnc, crc32, crcByte, crcStep, crcPoly,
      beValD, beVal, slice]

/-! ### Claim theorems: record framing -/

/-- Claim C8: when the compact 2-byte key-length field reads 0xFFFF, a
successfully decoded record takes its key length from the following
8 bytes (big-endian), and the cursor advance is reflected in the header
length and payload offsets; likewise a compact 4-byte value-length field
of 0xFFFFFFFF makes the value length come from the 8 bytes that follow
the (possibly extended) key-length field; key/value offsets and the total
length account for the extended fields via `hlenAt`. -/
theorem recordAt_extended_lengths {buf : List Nat} {off : Nat} {r : Rec}
    (h : recordAt buf off = RecResult.ok r) :
    (beValD buf (off + 2) 2 = 65535 →
      r.keyLen = beValD buf (off + 8) 8 ∧ 16 ≤ hlenAt buf off) ∧
    (beValD buf (off + 2) 2 ≠ 65535 → r.keyLen = beValD buf (off + 2) 2) ∧
    (beValD buf (off + 4) 4 = 4294967295 →
      r.valLen = beValD buf (off + 8 + (if beValD buf (off + 2) 2 = 65535 then 8 else 0)) 8) ∧
    (beValD buf (off + 4) 4 ≠ 4294967295 → r.valLen = beValD buf (off + 4) 4) ∧
    r.keyOffset = off + hlenAt buf off + 8 * (r.level + 1) + 8 ∧
    r.valOffset = r.keyOffset + r.keyLen ∧
    r.len = hlenAt buf off + 8 * (r.level + 1) + 8 + roundUp (r.keyLen + r.valLen) 8 := by
  obtain ⟨-, -, -, ⟨hk1, hk2⟩, ⟨hv1, hv2⟩, hlen, -, hko, hvo, -⟩ := recordAt_ok_inv h
  refine ⟨?_, hk2, hv1, hv2, hko, hvo, hlen⟩
  intro hs
  refine ⟨hk1 hs, ?_⟩
  simp only [hlenAt, if_pos hs]
  omega

/-- Witness for C8: the concrete record `bExt` uses the extended
key-length encoding (compact field 0xFFFF, extended length 1). -/
theorem recordAt_extended_lengths_witness :
    rExt.keyLen = beValD bExt 8 8 ∧ 16 ≤ hlenAt bExt 0 := by
  exact (@recordAt_extended_lengths bExt 0 rExt (by decide)).1 (by decide)

/-- Claim C9: the total record length is
`header_len + 8*(level+1) + 8 + round_up(key_len + val_len, 8)`, where
`round_up` is the identity on multiples of 8 and otherwise pads to the
next multiple of 8; consequently `total_len` is a multiple of 8 and at
least `header_len + 8 + key_len + val_len`. -/
theorem recordAt_total_len :
    (∀ n : Nat, roundUp n 8 % 8 = 0 ∧ n ≤ roundUp n 8 ∧
      (n % 8 = 0 → roundUp n 8 = n) ∧
      (n % 8 ≠ 0 → roundUp n 8 = n + (8 - n % 8) ∧ roundUp n 8 < n + 8)) ∧
    (∀ (hl level keyLen valLen : Nat), level ≤ 31 → hl % 8 = 0 →
      (hl + 8 * (level + 1) + 8 + roundUp (keyLen + valLen) 8) % 8 = 0 ∧
      hl + 8 + keyLen + valLen ≤ hl + 8 * (level + 1) + 8 + roundUp (keyLen + valLen) 8) ∧
    (∀ (buf : List Nat) (off : Nat) (r : Rec), recordAt buf off = RecResult.ok r →
      r.len = hlenAt buf off + 8 * (r.level + 1) + 8 + roundUp (r.keyLen + r.valLen) 8 ∧
      r.len % 8 = 0 ∧
      hlenAt buf off + 8 + r.keyLen + r.valLen ≤ r.len) := by
  refine ⟨roundUp_eight, ?_, ?_⟩
  · intro hl level keyLen valLen _ hmod
    obtain ⟨h1, h2, -, -⟩ := roundUp_eight (keyLen + valLen)
    exact ⟨by omega, by omega⟩
  · intro buf off r h
    obtain ⟨-, -, -, -, -, hlen, -, -, -, -⟩ := recordAt_ok_inv h
    obtain ⟨h1, h2, -, -⟩ := roundUp_eight (r.keyLen + r.valLen)
    have h3 := hlenAt_mod_eight buf off
    exact ⟨hlen, by omega, by omega⟩

/-- Witness for C9: `round_up` facts at 5 and 16, and the total-length
facts at the concrete decoded record `rGood` of `dbGood`. -/
theorem recordAt_total_len_witness :
    roundUp 5 8 = 8 ∧ roundUp 16 8 = 16 ∧
    rGood.len % 8 = 0 ∧ hlenAt dbGood 96 + 8 + rGood.keyLen + rGood.valLen ≤ rGood.len := by
  obtain ⟨hru, -, hrec⟩ := recordAt_total_len
  obtain ⟨-, -, -, h5⟩ := hru 5
  obtain ⟨-, -, h16, -⟩ := hru 16
  obtain ⟨-, hmod, hge⟩ := hrec dbGood 96 rGood (by decide)
  exact ⟨by simpa using (h5 (by decide)).1, h16 (by decide), hmod, hge⟩

/-- Claim C10: whenever a record decodes successfully, the byte ranges
returned by its key and value accessors lie inside the decoded record,
which itself lies inside the buffer: `key_offset + key_len` and
`val_offset + val_len` never exceed `offset + total_len ≤ buffer
length`. -/
theorem recordAt_payload_in_bounds {buf : List Nat} {off : Nat} {r : Rec}
    (h : recordAt buf off = RecResult.ok r) :
    r.keyOffset + r.keyLen ≤ off + r.len ∧
    r.valOffset + r.valLen ≤ off + r.len ∧
    off + r.len ≤ buf.length := by
  obtain ⟨-, -, -, -, -, hlen, hb, hko, hvo, -⟩ := recordAt_ok_inv h
  obtain ⟨-, hge, -, -⟩ := roundUp_eight (r.keyLen + r.valLen)
  refine ⟨by omega, by omega, hb⟩

/-- Witness for C10: payload bounds at the concrete decoded record
`rGood` of `dbGood`. -/
theorem recordAt_payload_in_bounds_witness :
    rGood.keyOffset + rGood.keyLen ≤ 96 + rGood.len ∧
    rGood.valOffset + rGood.valLen ≤ 96 + rGood.len ∧
    96 + rGood.len ≤ dbGood.length := by
  exact @recordAt_payload_in_bounds dbGood 96 rGood (by decide)

/-! ### Helper lemmas: loop unfoldings and `findPtr` characterization -/

/-- One-step unfolding of the `Db::get` loop at positive fuel. -/
theorem getLoop_succ (buf key : List Nat) (fuel : Nat) (r : Rec) (level : Nat) :
    getLoop buf key (fuel + 1) r level =
      match findPtr r.nextLoc level with
      | (l, off) =>
        if l = 0 ∨ off = 0 then some GetOutcome.notFound
        else
          match recordAt buf off with
          | RecResult.ok next =>
            match lexCmp key (recKey buf next) with
            | Ordering.eq => some (GetOutcome.found next)
            | Ordering.lt =>
              if l - 1 = 0 then some GetOutcome.notFound
              else getLoop buf key fuel r (l - 1)
            | Ordering.gt => getLoop buf key fuel next next.level
          | RecResult.err e => some (GetOutcome.err e)
          | RecResult.panicUnknownType b => some (GetOutcome.panicUnknownType b)
          | RecResult.oobRead => some GetOutcome.oobRead := rfl

/-- One-step unfolding of the iterator scan at positive fuel. -/
theorem scanFuel_succ (buf : List Nat) (cur fuel off : Nat) :
    scanFuel buf cur (fuel + 1) off =
      (if off < cur then
        match readBytes buf off 8 with
        | none => some ScanOutcome.oobRead
        | some w =>
          if w = blankBytes then scanFuel buf cur fuel (off + 8)
          else
            match recordAt buf off with
            | RecResult.ok r => (scanFuel buf cur fuel (off + r.len)).map (consOut r)
            | RecResult.err e => some (ScanOutcome.panicDecode e)
            | RecResult.panicUnknownType b => some (ScanOutcome.panicUnknownType b)
            | RecResult.oobRead => some ScanOutcome.oobRead
      else some (ScanOutcome.items [])) := rfl

/-- Characterization of the inner downward-scanning loop of `get`: either
no level in `1..=level` holds a non-zero pointer and the result is
`(0, 0)`, or the result is the greatest such level with its pointer. -/
theorem findPtr_spec (nl : List Nat) : ∀ level : Nat,
    (findPtr nl level = (0, 0) ∧ ∀ l, 1 ≤ l → l ≤ level → nl.getD l 0 = 0) ∨
    (∃ l, 1 ≤ l ∧ l ≤ level ∧ nl.getD l 0 ≠ 0 ∧ findPtr nl level = (l, nl.getD l 0) ∧
      ∀ l', l < l' → l' ≤ level → nl.getD l' 0 = 0)
  | 0 => Or.inl ⟨rfl, fun l h1 h2 => absurd (Nat.le_trans h1 h2) (by omega)⟩
  | level + 1 => by
    by_cases h : nl.getD (level + 1) 0 = 0
    · rcases findPtr_spec nl level with ⟨he, hz⟩ | ⟨l, h1, h2, h3, h4, h5⟩
      · refine Or.inl ⟨?_, ?_⟩
        · rw [findPtr, if_pos h, he]
        · intro l hl1 hl2
          rcases Nat.lt_or_ge l (level + 1) with hlt | hge
          · exact hz l hl1 (by omega)
          · have : l = level + 1 := by omega
            rw [this]; exact h
      · refine Or.inr ⟨l, h1, by omega, h3, ?_, ?_⟩
        · rw [findPtr, if_pos h, h4]
        · intro l' hl1 hl2
          rcases Nat.lt_or_ge l' (level + 1) with hlt | hge
          · exact h5 l' hl1 (by omega)
          · have : l' = level + 1 := by omega
            rw [this]; exact h
    · exact Or.inr ⟨level + 1, by omega, le_refl _, h, by rw [findPtr, if_neg h], by omega⟩

/-- The inner loop exits with a non-zero pointer only at a level in
`1..=level`, holding exactly that pointer slot's value. -/
theorem findPtr_ne_zero {nl : List Nat} {level l off : Nat}
    (h : findPtr nl level = (l, off)) (hoff : off ≠ 0) :
    1 ≤ l ∧ l ≤ level ∧ nl.getD l 0 = off := by
  rcases findPtr_spec nl level with ⟨he, -⟩ | ⟨l', h1, h2, h3, h4, -⟩
  · rw [he] at h
    injection h with h h'
    exact absurd h'.symm hoff
  · rw [h4] at h
    injection h with h h'
    subst h
    exact ⟨h1, h2, h'⟩

/-- A `getD` value is either a member of the list or the default. -/
theorem getD_mem_or (l : List Nat) (n d : Nat) : l.getD n d ∈ l ∨ l.getD n d = d := by
  induction l generalizing n with
  | nil => right; rfl
  | cons x xs ih =>
    cases n with
    | zero => left; exact List.mem_cons_self _ _
    | succ m =>
      rcases ih m with hm | hd
      · left; exact List.mem_cons_of_mem _ hm
      · right; exact hd

/-- The framing-header length is between 8 and 24. -/
theorem hlenAt_bounds (buf : List Nat) (off : Nat) :
    8 ≤ hlenAt buf off ∧ hlenAt buf off ≤ 24 := by
  unfold hlenAt
  split <;> split <;> omega

/-- Size facts about a successfully decoded record: its `offset` field is
the decode offset, its total length is at least 24 bytes, and it starts
strictly inside the buffer. -/
theorem recordAt_ok_size {buf : List Nat} {off : Nat} {r : Rec}
    (h : recordAt buf off = RecResult.ok r) :
    r.offset = off ∧ 24 ≤ r.len ∧ off + r.len ≤ buf.length ∧
    off < buf.length ∧ r.level ≤ 31 := by
  obtain ⟨hoff, hlev, -, -, -, hlen, hb, -, -, -⟩ := recordAt_ok_inv h
  obtain ⟨hl8, -⟩ := hlenAt_bounds buf off
  refine ⟨hoff, by omega, hb, by omega, hlev⟩

/-! ### Helper lemmas: byte-wise lexicographic comparison -/

/-- Precise description of `lexCmp` on two non-empty lists. -/
theorem lexCmp_cons_lt_iff (a b : Nat) (as bs : List Nat) :
    lexCmp (a :: as) (b :: bs) = Ordering.lt ↔
      (a < b ∨ (a = b ∧ lexCmp as bs = Ordering.lt)) := by
  simp only [lexCmp]
  by_cases h1 : a < b
  · rw [if_pos h1]
    simp [h1]
  · by_cases h2 : b < a
    · rw [if_neg h1, if_pos h2]
      constructor
      · intro h; simp at h
      · rintro (h | ⟨he, -⟩) <;> omega
    · have he : a = b := by omega
      rw [if_neg h1, if_neg h2]
      constructor
      · intro h; exact Or.inr ⟨he, h⟩
      · rintro (h | ⟨-, h⟩)
        · omega
        · exact h

/-- `lexCmp` returns `eq` exactly on equal lists. -/
theorem lexCmp_eq_iff : ∀ a b : List Nat, lexCmp a b = Ordering.eq ↔ a = b
  | [], [] => by simp [lexCmp]
  | [], _ :: _ => by simp [lexCmp]
  | _ :: _, [] => by simp [lexCmp]
  | a :: as, b :: bs => by
    simp only [lexCmp]
    by_cases h1 : a < b
    · rw [if_pos h1]
      refine ⟨fun h => by simp at h, fun h => ?_⟩
      injection h with hab _
      omega
    · by_cases h2 : b < a
      · rw [if_neg h1, if_pos h2]
        refine ⟨fun h => by simp at h, fun h => ?_⟩
        injection h with hab _
        omega
      · have hab : a = b := by omega
        subst hab
        rw [if_neg h1, if_neg h2, lexCmp_eq_iff as bs]
        constructor
        · intro h; rw [h]
        · intro h; cases h; rfl

/-- `gt` is the mirror image of `lt`. -/
theorem lexCmp_gt_iff : ∀ a b : List Nat, lexCmp a b = Ordering.gt ↔ lexCmp b a = Ordering.lt
  | [], [] => by simp [lexCmp]
  | [], _ :: _ => by simp [lexCmp]
  | _ :: _, [] => by simp [lexCmp]
  | a :: as, b :: bs => by
    simp only [lexCmp]
    by_cases h1 : a < b
    · rw [if_pos h1, if_neg (show ¬b < a by omega), if_pos h1]
      simp
    · by_cases h2 : b < a
      · rw [if_neg h1, if_pos h2, if_pos h2]
        simp
      · rw [if_neg h1, if_neg h2, if_neg h2, if_neg h1]
        exact lexCmp_gt_iff as bs

/-- Transitivity of the strict byte-wise order. -/
theorem lexCmp_lt_trans : ∀ a b c : List Nat,
    lexCmp a b = Ordering.lt → lexCmp b c = Ordering.lt → lexCmp a c = Ordering.lt
  | [], [], _ => fun h1 _ => by simp [lexCmp] at h1
  | [], _ :: _, [] => fun _ h2 => by simp [lexCmp] at h2
  | [], _ :: _, _ :: _ => fun _ _ => by simp [lexCmp]
  | _ :: _, [], _ => fun h1 _ => by simp [lexCmp] at h1
  | _ :: _, _ :: _, [] => fun _ h2 => by simp [lexCmp] at h2
  | a :: as, b :: bs, c :: cs => fun h1 h2 => by
    rw [lexCmp_cons_lt_iff] at h1 h2 ⊢
    rcases h1 with h1 | ⟨he1, h1⟩
    · rcases h2 with h2 | ⟨he2, -⟩
      · exact Or.inl (by omega)
      · exact Or.inl (by omega)
    · rcases h2 with h2 | ⟨he2, h2⟩
      · exact Or.inl (by omega)
      · exact Or.inr ⟨by omega, lexCmp_lt_trans as bs cs h1 h2⟩

/-- Strictly smaller lists are distinct. -/
theorem lexCmp_lt_ne {a b : List Nat} (h : lexCmp a b = Ordering.lt) : a ≠ b := by
  intro he
  subst he
  rw [(lexCmp_eq_iff a a).mpr rfl] at h
  exact absurd h (by simp)

/-! ### Helper lemmas: list access and `find?` -/

/-- A successful `find?` splits the list at the first satisfying
element. -/
theorem find?_split {α : Type} (p : α → Bool) : ∀ (l : List α) (a : α),
    l.find? p = some a → ∃ t1 t2, l = t1 ++ a :: t2 ∧ ∀ x ∈ t1, p x = false
  | [], a => by intro h; simp at h
  | x :: xs, a => by
    intro h
    by_cases hx : p x = true
    · rw [List.find?_cons_of_pos _ hx] at h
      injection h with h
      subst h
      exact ⟨[], xs, rfl, by simp⟩
    · rw [List.find?_cons_of_neg _ hx] at h
      obtain ⟨t1, t2, heq, hall⟩ := find?_split p xs a h
      refine ⟨x :: t1, t2, by rw [heq, List.cons_append], ?_⟩
      intro y hy
      rcases List.mem_cons.mp hy with rfl | hy2
      · exact Bool.eq_false_iff.mpr hx
      · exact hall y hy2

/-- `find?` ignores an all-failing prefix. -/
theorem find?_append_false {α : Type} (p : α → Bool) : ∀ (t1 t2 : List α),
    (∀ x ∈ t1, p x = false) → (t1 ++ t2).find? p = t2.find? p
  | [], t2 => fun _ => rfl
  | x :: xs, t2 => fun h => by
    rw [List.cons_append,
      List.find?_cons_of_neg _ (by rw [h x (List.mem_cons_self _ _)]; simp)]
    exact find?_append_false p xs t2 (fun y hy => h y (List.mem_cons_of_mem _ hy))

/-- `getD` after `drop` indexes the original list. -/
theorem getD_drop {α : Type} : ∀ (l : List α) (j m : Nat) (d : α),
    (l.drop j).getD m d = l.getD (j + m) d
  | [], j, m, d => by simp
  | _ :: _, 0, m, d => by simp
  | x :: xs, j + 1, m, d => by
    show (xs.drop j).getD m d = (x :: xs).getD (j + 1 + m) d
    rw [show j + 1 + m = (j + m) + 1 by omega]
    show (xs.drop j).getD m d = xs.getD (j + m) d
    exact getD_drop xs j m d

/-- `getD` into the left part of an append. -/
theorem getD_append_lt {α : Type} : ∀ (l1 l2 : List α) (m : Nat) (d : α),
    m < l1.length → (l1 ++ l2).getD m d = l1.getD m d
  | [], _, m, d => by intro h; simp at h
  | _ :: _, l2, 0, d => fun _ => rfl
  | x :: xs, l2, m + 1, d => fun h => by
    show (xs ++ l2).getD m d = xs.getD m d
    exact getD_append_lt xs l2 m d (by simpa using h)

/-- `getD` at the junction of an append. -/
theorem getD_append_len {α : Type} : ∀ (t1 : List α) (c : α) (t2 : List α) (d : α),
    (t1 ++ c :: t2).getD t1.length d = c
  | [], _, _, _ => rfl
  | _ :: xs, c, t2, d => getD_append_len xs c t2 d

/-- In-range `getD` values are members. -/
theorem getD_mem_of_lt {α : Type} : ∀ (l : List α) (m : Nat) (d : α),
    m < l.length → l.getD m d ∈ l
  | [], m, d => by intro h; simp at h
  | x :: xs, 0, d => fun _ => List.mem_cons_self _ _
  | x :: xs, m + 1, d => fun h =>
    List.mem_cons_of_mem _ (getD_mem_of_lt xs m d (by simpa using h))

/-! ### Helper lemmas: `succOffset` and the well-formed traversal -/

/-- When every record of the suffix has a non-zero offset, a zero
`succOffset` means no record of the suffix reaches level `l`. -/
theorem succOffset_zero {suffix : List Rec} {l : Nat}
    (hz : ∀ c ∈ suffix, c.offset ≠ 0) (h : succOffset suffix l = 0) :
    ∀ c ∈ suffix, ¬ l ≤ c.level := by
  unfold succOffset at h
  cases hf : suffix.find? (fun x => decide (l ≤ x.level)) with
  | none =>
    intro c hc
    have := List.find?_eq_none.mp hf c hc
    simpa using this
  | some c =>
    rw [hf] at h
    exact absurd h (hz c (List.mem_of_find?_eq_some hf))

/-- A non-zero `succOffset` splits the suffix at the first record of
level ≥ `l`, whose offset it is. -/
theorem succOffset_pos {suffix : List Rec} {l off : Nat}
    (h : succOffset suffix l = off) (hoff : off ≠ 0) :
    ∃ c t1 t2, suffix = t1 ++ c :: t2 ∧ c.offset = off ∧ l ≤ c.level ∧
      ∀ x ∈ t1, ¬ l ≤ x.level := by
  unfold succOffset at h
  cases hf : suffix.find? (fun x => decide (l ≤ x.level)) with
  | none =>
    rw [hf] at h
    exact absurd h.symm hoff
  | some c =>
    rw [hf] at h
    obtain ⟨t1, t2, heq, hall⟩ := find?_split _ suffix c hf
    refine ⟨c, t1, t2, heq, h, by simpa using List.find?_some hf, ?_⟩
    intro x hx
    have := hall x hx
    simpa using this

/-- Main correctness lemma for the `get` traversal over a well-formed
chain `cs` (sorted by key, all levels ≥ 1, offsets non-zero, pointers as
`succOffset`): from any intermediate state — `r` whose pointers describe
the suffix `cs.drop j`, all chain records before `j` having keys below
the search key, and a current level in `1..=r.level` — the loop returns
the first suffix record with the search key, or "not found". -/
theorem getLoop_wf (buf k : List Nat) (cs : List Rec)
    (hcs : ∀ c ∈ cs, recordAt buf c.offset = RecResult.ok c ∧ 1 ≤ c.level ∧ c.offset ≠ 0)
    (hsort : List.Pairwise (fun a b => lexCmp (recKey buf a) (recKey buf b) = Ordering.lt) cs)
    (hptr : ∀ i, i < cs.length → ∀ l, 1 ≤ l → l ≤ (cs.getD i default).level →
      (cs.getD i default).nextLoc.getD l 0 = succOffset (cs.drop (i + 1)) l) :
    ∀ (fuel j : Nat) (r : Rec) (level : Nat),
      j ≤ cs.length →
      (∀ l, 1 ≤ l → l ≤ r.level → r.nextLoc.getD l 0 = succOffset (cs.drop j) l) →
      1 ≤ level → level ≤ r.level →
      32 * (cs.length - j) + level < fuel →
      getLoop buf k fuel r level = some (lookupRes buf k (cs.drop j)) := by
  intro fuel
  induction fuel with
  | zero => intro j r level _ _ h1 _ hm; omega
  | succ n ih =>
    intro j r level hj hrp hl1 hlr hm
    rw [getLoop_succ]
    rcases hfp : findPtr r.nextLoc level with ⟨l, off⟩
    have hzoff : ∀ c ∈ cs.drop j, c.offset ≠ 0 :=
      fun c hc => (hcs c (List.drop_subset _ _ hc)).2.2
    have hlev1 : ∀ c ∈ cs.drop j, 1 ≤ c.level :=
      fun c hc => (hcs c (List.drop_subset _ _ hc)).2.1
    by_cases hguard : l = 0 ∨ off = 0
    · simp only [if_pos hguard]
      rcases findPtr_spec r.nextLoc level with ⟨-, hz⟩ | ⟨l', hl1', hl2', hnz, hfeq, -⟩
      · have h1z : r.nextLoc.getD 1 0 = 0 := hz 1 (le_refl 1) hl1
        have hsz : succOffset (cs.drop j) 1 = 0 := by
          rw [← hrp 1 (le_refl 1) (le_trans hl1 hlr)]
          exact h1z
        have hempty : cs.drop j = [] := by
          cases hd : cs.drop j with
          | nil => rfl
          | cons c t =>
            have hcm : c ∈ cs.drop j := by rw [hd]; exact List.mem_cons_self _ _
            have := succOffset_zero hzoff hsz c hcm
            exact absurd (hlev1 c hcm) this
        rw [hempty]
        rfl
      · rw [hfeq] at hfp
        injection hfp with ha hb
        rcases hguard with hg | hg
        · omega
        · rw [← hb] at hg
          exact absurd hg hnz
    · simp only [if_neg hguard]
      have hoff : off ≠ 0 := fun hc => hguard (Or.inr hc)
      obtain ⟨hl1', hll', hgd⟩ := findPtr_ne_zero hfp hoff
      have hso : succOffset (cs.drop j) l = off := by
        rw [← hrp l hl1' (le_trans hll' hlr)]
        exact hgd
      obtain ⟨c, t1, t2, hdrop, hcoff, hclev, ht1lev⟩ := succOffset_pos hso hoff
      have hcmemd : c ∈ cs.drop j := by
        rw [hdrop]
        exact List.mem_append_right _ (List.mem_cons_self _ _)
      have hcmem : c ∈ cs := List.drop_subset _ _ hcmemd
      obtain ⟨hcrec, hclev1, hcoff0⟩ := hcs c hcmem
      have hra : recordAt buf off = RecResult.ok c := by
        rw [← hcoff]
        exact hcrec
      -- sortedness of the suffix, split at c
      have hsortd : List.Pairwise
          (fun a b => lexCmp (recKey buf a) (recKey buf b) = Ordering.lt) (cs.drop j) :=
        hsort.sublist (List.drop_sublist _ _)
      rw [hdrop] at hsortd
      obtain ⟨hpw1, hpw2, hx12⟩ := List.pairwise_append.mp hsortd
      obtain ⟨hc2, hpwt2⟩ := List.pairwise_cons.mp hpw2
      have ht1c : ∀ x ∈ t1, lexCmp (recKey buf x) (recKey buf c) = Ordering.lt :=
        fun x hx => hx12 x hx c (List.mem_cons_self _ _)
      -- length bookkeeping
      have hlen2 : cs.length - j = t1.length + 1 + t2.length := by
        have h1 : (cs.drop j).length = cs.length - j := List.length_drop _ _
        rw [hdrop] at h1
        simp [List.length_append] at h1
        omega
      -- index of c in cs
      have hidx : cs.getD (j + t1.length) default = c := by
        rw [← getD_drop cs j t1.length default, hdrop]
        exact getD_append_len t1 c t2 _
      have ht2drop : cs.drop (j + t1.length + 1) = t2 := by
        have harr : j + t1.length + 1 = j + (t1.length + 1) := by omega
        rw [harr, ← List.drop_drop, hdrop]
        rw [show t1 ++ c :: t2 = (t1 ++ [c]) ++ t2 by simp]
        exact List.drop_left' (by simp)
      cases hcmp : lexCmp k (recKey buf c) with
      | eq =>
        simp only [hra, hcmp]
        have hk : recKey buf c = k := ((lexCmp_eq_iff _ _).mp hcmp).symm
        have hfind : (cs.drop j).find? (fun x => decide (recKey buf x = k)) = some c := by
          rw [hdrop, find?_append_false]
          · rw [List.find?_cons_of_pos _ (by simp [hk])]
          · intro x hx
            have hlt := ht1c x hx
            rw [hk] at hlt
            exact decide_eq_false (lexCmp_lt_ne hlt)
        simp only [lookupRes, hfind]
      | lt =>
        simp only [hra, hcmp]
        by_cases hl0 : l - 1 = 0
        · rw [if_pos hl0]
          have ht1e : t1 = [] := by
            cases ht : t1 with
            | nil => rfl
            | cons x xs =>
              have hxm : x ∈ t1 := by rw [ht]; exact List.mem_cons_self _ _
              have hxcs : x ∈ cs.drop j := by
                rw [hdrop]
                exact List.mem_append_left _ hxm
              have hge := hlev1 x hxcs
              have hnl := ht1lev x hxm
              omega
          have hnone : (cs.drop j).find? (fun x => decide (recKey buf x = k)) = none := by
            rw [List.find?_eq_none]
            intro x hx
            rw [hdrop, ht1e, List.nil_append] at hx
            rcases List.mem_cons.mp hx with rfl | hx2
            · simp only [decide_eq_true_eq]
              intro he
              exact lexCmp_lt_ne hcmp he.symm
            · have h1 := hc2 x hx2
              have h2 := lexCmp_lt_trans _ _ _ hcmp h1
              simp only [decide_eq_true_eq]
              intro he
              exact lexCmp_lt_ne h2 he.symm
          simp only [lookupRes, hnone]
        · rw [if_neg hl0]
          exact ih j r (l - 1) hj hrp (by omega) (by omega) (by omega)
      | gt =>
        simp only [hra, hcmp]
        have hkgt : lexCmp (recKey buf c) k = Ordering.lt := (lexCmp_gt_iff _ _).mp hcmp
        have hjlt : j + t1.length < cs.length := by omega
        have hrp' : ∀ l', 1 ≤ l' → l' ≤ c.level →
            c.nextLoc.getD l' 0 = succOffset (cs.drop (j + t1.length + 1)) l' := by
          intro l' h1 h2
          have := hptr (j + t1.length) hjlt l' h1 (by rw [hidx]; exact h2)
          rw [hidx] at this
          exact this
        have hlev31 : c.level ≤ 31 := (recordAt_ok_size hcrec).2.2.2.2
        have hrec := ih (j + t1.length + 1) c c.level (by omega) hrp' hclev1 (le_refl _)
          (by rw [show cs.length - (j + t1.length + 1) = t2.length by omega]; omega)
        rw [hrec, ht2drop]
        have halign : lookupRes buf k (cs.drop j) = lookupRes buf k t2 := by
          simp only [lookupRes]
          rw [hdrop, find?_append_false, List.find?_cons_of_neg]
          · simp only [decide_eq_true_eq]
            exact fun he => lexCmp_lt_ne hkgt he
          · intro x hx
            have h2 := lexCmp_lt_trans _ _ _ (ht1c x hx) hkgt
            exact decide_eq_false (fun he => lexCmp_lt_ne h2 he)
        rw [halign]

/-- Top-level form of the traversal correctness: on a well-formed
skip-list buffer, `get` (with fuel `32 * (|cs| + 1)`) computes exactly
the reference lookup over the sorted chain `cs`. -/
theorem getFuel_wf (buf k : List Nat) (h : Rec) (cs : List Rec) (hwf : SkipWF buf h cs) :
    getFuel buf k (32 * (cs.length + 1)) = some (lookupRes buf k cs) := by
  obtain ⟨hh, htyp, hhl, hcs, hsort, hph, hpc⟩ := hwf
  have hh31 : h.level ≤ 31 := (recordAt_ok_size hh).2.2.2.2
  unfold getFuel
  rw [hh]
  show getLoop buf k (32 * (cs.length + 1)) h h.level = some (lookupRes buf k cs)
  by_cases hcs0 : cs = []
  · subst hcs0
    have hz : ∀ l, 1 ≤ l → l ≤ h.level → h.nextLoc.getD l 0 = 0 := by
      intro l hl1 hl2
      have := hph l (by omega) hl1 hl2
      rw [this]
      rfl
    rw [show 32 * (([] : List Rec).length + 1) = 31 + 1 by rfl, getLoop_succ]
    rcases hfp : findPtr h.nextLoc h.level with ⟨l, off⟩
    rcases findPtr_spec h.nextLoc h.level with ⟨hfe, -⟩ | ⟨l', hl1', hl2', hnz, hfeq, -⟩
    · rw [hfe] at hfp
      injection hfp with ha hb
      rw [← ha, ← hb]
      simp [lookupRes]
    · exact absurd (hz l' hl1' hl2') hnz
  · have hhl1 : 1 ≤ h.level := hhl hcs0
    have hcs' : ∀ c ∈ cs, recordAt buf c.offset = RecResult.ok c ∧ 1 ≤ c.level ∧ c.offset ≠ 0 :=
      fun c hc => ⟨(hcs c hc).1, (hcs c hc).2.2.1, (hcs c hc).2.2.2⟩
    have hptr' : ∀ i, i < cs.length → ∀ l, 1 ≤ l → l ≤ (cs.getD i default).level →
        (cs.getD i default).nextLoc.getD l 0 = succOffset (cs.drop (i + 1)) l := by
      intro i hi l hl1 hl2
      have hmem : cs.getD i default ∈ cs := getD_mem_of_lt _ _ _ hi
      have h31 : (cs.getD i default).level ≤ 31 :=
        (recordAt_ok_size (hcs' _ hmem).1).2.2.2.2
      exact hpc i hi l (by omega) hl1 hl2
    have := getLoop_wf buf k cs hcs' hsort hptr' (32 * (cs.length + 1)) 0 h h.level
      (by omega)
      (by
        intro l hl1 hl2
        rw [List.drop_zero]
        exact hph l (by omega) hl1 hl2)
      hhl1 (le_refl _) (by omega)
    rw [this, List.drop_zero]

/-! ### Claim theorems: `get` against the sequential scan -/

/-- Claim C1 (counterexample to the claim as stated): in `dbCex` every
record decodes successfully (the scan yields the head and the data
record, and both decode), the scan contains a data record with key
`[97]` and value `[98]`, yet `get [97]` returns "not found": decoding
success alone does not make `get` agree with the scan, because the head's
forward pointers are all zero and never reach the data record. -/
theorem get_misses_scanned_record :
    recordAt dbCex 64 = RecResult.ok hCex ∧
    recordAt dbCex 96 = RecResult.ok rCex ∧
    scanFuel dbCex 136 10 startOffset = some (ScanOutcome.items [hCex, rCex]) ∧
    rCex.typ = RecordType.record ∧ recKey dbCex rCex = [97] ∧
    recVal dbCex rCex = [98] ∧
    getFuel dbCex [97] 64 = some GetOutcome.notFound := by
  refine ⟨by decide, by decide, by decide, by decide, by decide, by decide, by decide⟩

/-- Claim C1 (amended): on a buffer whose records not only decode but
form a well-formed skip list (`SkipWF`: the scan yields the dummy head
followed by data records that are a permutation of the sorted chain
`cs`, whose forward pointers are the `succOffset` structure), `get`
agrees with the sequential scan as reference: for every key `k`, if the
scan yields a data record with key `k` then `get k` returns exactly that
record (hence with that record's value), and if no scanned data record
has key `k` then `get k` returns "not found". -/
theorem get_matches_scan (buf : List Nat) (h : Rec) (cs rs : List Rec) (cur fs : Nat)
    (k : List Nat) (hwf : SkipWF buf h cs)
    (hscan : scanFuel buf cur fs startOffset = some (ScanOutcome.items (h :: rs)))
    (hperm : rs.Perm cs) :
    ((∃ r ∈ rs, r.typ = RecordType.record ∧ recKey buf r = k) →
      ∃ r ∈ rs, r.typ = RecordType.record ∧ recKey buf r = k ∧
        getFuel buf k (32 * (cs.length + 1)) = some (GetOutcome.found r)) ∧
    ((∀ r ∈ rs, recKey buf r ≠ k) →
      getFuel buf k (32 * (cs.length + 1)) = some GetOutcome.notFound) := by
  have hget := getFuel_wf buf k h cs hwf
  obtain ⟨-, -, -, hcs, -, -, -⟩ := hwf
  constructor
  · rintro ⟨r, hrm, -, hrk⟩
    have hrcs : r ∈ cs := hperm.mem_iff.mp hrm
    cases hfind : cs.find? (fun c => decide (recKey buf c = k)) with
    | none =>
      have := List.find?_eq_none.mp hfind r hrcs
      simp [hrk] at this
    | some c =>
      have hck : recKey buf c = k := by simpa using List.find?_some hfind
      have hcm : c ∈ cs := List.mem_of_find?_eq_some hfind
      refine ⟨c, hperm.mem_iff.mpr hcm, (hcs c hcm).2.1, hck, ?_⟩
      rw [hget]
      simp only [lookupRes, hfind]
  · intro hnone
    rw [hget]
    simp only [lookupRes]
    cases hfind : cs.find? (fun c => decide (recKey buf c = k)) with
    | none => rfl
    | some c =>
      have hck : recKey buf c = k := by simpa using List.find?_some hfind
      have hcm := List.mem_of_find?_eq_some hfind
      exact absurd hck (hnone c (hperm.mem_iff.mpr hcm))

/-- Witness for C1's amended theorem: on the concrete well-formed
database `dbGood` (scan yields head then the single data record with key
`[97]`), `get [97]` returns exactly that record. -/
theorem get_matches_scan_witness :
    getFuel dbGood [97] (32 * 2) = some (GetOutcome.found rGood) := by
  have hwf : SkipWF dbGood hGood [rGood] := by
    unfold SkipWF
    decide
  have hscan : scanFuel dbGood 136 10 startOffset =
      some (ScanOutcome.items (hGood :: [rGood])) := by decide
  obtain ⟨r, hrm, -, -, hgf⟩ := (get_matches_scan dbGood hGood [rGood] [rGood] 136 10 [97]
    hwf hscan (List.Perm.refl _)).1 ⟨rGood, List.mem_cons_self _ _, rfl, by decide⟩
  have hr : r = rGood := by simpa using hrm
  rw [hr] at hgf
  exact hgf

/-! ### Claim theorems: the `get` traversal loop step -/

/-- Claim C6: one iteration of `get`'s traversal loop, after the inner
downward scan found a non-zero pointer at level `l` and the record there
decoded as `next`: on an equal key comparison `next` is returned; when
the search key is less, the level is decremented from `l` and "not
found" is returned exactly when it reaches 0, otherwise the loop
continues with `r` unchanged at level `l - 1`; when the search key is
greater, the loop continues with `next` at `next`'s own stored level. -/
theorem getLoop_step (buf key : List Nat) (fuel : Nat) (r : Rec) (level l off : Nat)
    (next : Rec) (hf : findPtr r.nextLoc level = (l, off)) (hoff : off ≠ 0)
    (hrec : recordAt buf off = RecResult.ok next) :
    (lexCmp key (recKey buf next) = Ordering.eq →
      getLoop buf key (fuel + 1) r level = some (GetOutcome.found next)) ∧
    (lexCmp key (recKey buf next) = Ordering.lt →
      (l = 1 → getLoop buf key (fuel + 1) r level = some GetOutcome.notFound) ∧
      (2 ≤ l → getLoop buf key (fuel + 1) r level = getLoop buf key fuel r (l - 1))) ∧
    (lexCmp key (recKey buf next) = Ordering.gt →
      getLoop buf key (fuel + 1) r level = getLoop buf key fuel next next.level) := by
  obtain ⟨hl1, -, -⟩ := findPtr_ne_zero hf hoff
  have hguard : ¬(l = 0 ∨ off = 0) := by omega
  refine ⟨?_, ?_, ?_⟩
  · intro hcmp
    rw [getLoop_succ, hf]
    simp only [if_neg hguard, hrec, hcmp]
  · intro hcmp
    constructor
    · intro hl
      rw [getLoop_succ, hf]
      simp only [if_neg hguard, hrec, hcmp]
      rw [if_pos (by omega : l - 1 = 0)]
    · intro hl2
      rw [getLoop_succ, hf]
      have : ¬(l - 1 = 0) := by omega
      simp only [if_neg hguard, hrec, hcmp, if_neg this]
  · intro hcmp
    rw [getLoop_succ, hf]
    simp only [if_neg hguard, hrec, hcmp]

/-- Witness for C6: in `dbGood`, from the head at level 1 the loop finds
the pointer to offset 96, compares key `[97]` equal, and returns the data
record. -/
theorem getLoop_step_witness :
    getLoop dbGood [97] 2 hGood 1 = some (GetOutcome.found rGood) := by
  exact (getLoop_step dbGood [97] 1 hGood 1 1 96 rGood (by decide) (by decide)
    (by decide)).1 (by decide)

/-! ### Claim theorems: termination -/

/-- Helper: under progressivity, the `get` loop returns within fuel
exceeding `32 * (remaining buffer span) + level`. -/
theorem getLoop_progressive_total (buf key : List Nat) (hp : Progressive buf) :
    ∀ fuel (r : Rec) (level : Nat), recordAt buf r.offset = RecResult.ok r →
      32 * (buf.length - r.offset) + level < fuel →
      getLoop buf key fuel r level ≠ none := by
  intro fuel
  induction fuel with
  | zero => intro r level _ hm; omega
  | succ n ih =>
    intro r level hr hm
    rw [getLoop_succ]
    rcases hfp : findPtr r.nextLoc level with ⟨l, off⟩
    by_cases hguard : l = 0 ∨ off = 0
    · simp [if_pos hguard]
    · simp only [if_neg hguard]
      have hoff : off ≠ 0 := fun hc => hguard (Or.inr hc)
      obtain ⟨hl1, hllev, hgd⟩ := findPtr_ne_zero hfp hoff
      cases hra : recordAt buf off with
      | err e => simp
      | panicUnknownType b => simp
      | oobRead => simp
      | ok next =>
        have hmem : off ∈ r.nextLoc := by
          rcases getD_mem_or r.nextLoc l 0 with hin | hdef
          · rw [hgd] at hin; exact hin
          · rw [hgd] at hdef; exact absurd hdef hoff
        have hrsize := recordAt_ok_size hr
        have hprog := hp r.offset (by omega)
        have hfwd : r.offset < off := by
          unfold progAtB at hprog
          rw [hr] at hprog
          rw [List.all_eq_true] at hprog
          have := hprog off hmem
          rcases of_decide_eq_true this with h0 | hlt
          · exact absurd h0 hoff
          · exact hlt
        have hnsize := recordAt_ok_size hra
        cases hcmp : lexCmp key (recKey buf next) with
        | eq => simp [hcmp]
        | lt =>
          simp only [hcmp]
          by_cases hl0 : l - 1 = 0
          · simp [if_pos hl0]
          · simp only [if_neg hl0]
            exact ih r (l - 1) hr (by omega)
        | gt =>
          simp only [hcmp]
          refine ih next next.level ?_ ?_
          · rw [hnsize.1]; exact hra
          · rw [hnsize.1]
            have h1 : off < buf.length := hnsize.2.2.2.1
            have h2 : next.level ≤ 31 := hnsize.2.2.2.2
            omega

/-- Claim C7 (amended) part of the development: the sequential scan
(`iterate` / `dump`) terminates on every buffer with fuel `cur + 1`,
and `get` terminates on every progressive buffer with fuel
`32 * (buffer length + 1)`. -/
theorem scan_total_and_progressive_get_terminates :
    (∀ (buf : List Nat) (cur off : Nat), scanFuel buf cur (cur + 1) off ≠ none) ∧
    (∀ (buf key : List Nat), Progressive buf →
      getFuel buf key (32 * (buf.length + 1)) ≠ none) := by
  constructor
  · have main : ∀ (buf : List Nat) (cur fuel off : Nat), cur ≤ off + 8 * fuel →
        scanFuel buf cur (fuel + 1) off ≠ none := by
      intro buf cur fuel
      induction fuel with
      | zero =>
        intro off h
        rw [scanFuel_succ, if_neg (by omega)]
        simp
      | succ n ih =>
        intro off h
        rw [scanFuel_succ]
        by_cases hlt : off < cur
        · rw [if_pos hlt]
          cases hrb : readBytes buf off 8 with
          | none => simp
          | some w =>
            by_cases hbl : w = blankBytes
            · simp only [if_pos hbl]
              exact ih (off + 8) (by omega)
            · simp only [if_neg hbl]
              cases hra : recordAt buf off with
              | err e => simp
              | panicUnknownType b => simp
              | oobRead => simp
              | ok r =>
                have hlen : 24 ≤ r.len := (recordAt_ok_size hra).2.1
                intro hc
                rw [Option.map_eq_none'] at hc
                exact ih (off + r.len) (by omega) hc
        · rw [if_neg hlt]
          simp
    intro buf cur off
    have h8 : cur ≤ off + 8 * cur := by omega
    exact main buf cur cur off h8
  · intro buf key hp
    unfold getFuel
    cases hra : recordAt buf startOffset with
    | err e => simp
    | panicUnknownType b => simp
    | oobRead => simp
    | ok r =>
      have hsz := recordAt_ok_size hra
      refine getLoop_progressive_total buf key hp _ r r.level ?_ ?_
      · rw [hsz.1]; exact hra
      · have h1 : startOffset < buf.length := hsz.2.2.2.1
        have h2 : r.level ≤ 31 := hsz.2.2.2.2
        rw [hsz.1]
        omega

/-- Witness for C7's amended theorem: the empty scan terminates, and the
one-byte buffer `[43]` is progressive (no record decodes) with a
terminating `get`. -/
theorem scan_total_witness :
    scanFuel [] 0 1 0 ≠ none ∧
    (Progressive [43] ∧ getFuel [43] [] (32 * 2) ≠ none) := by
  have hprog : Progressive [43] := by
    intro off hoff
    rw [show ([43] : List Nat).length = 1 from rfl] at hoff
    have h0 : off = 0 := by omega
    subst h0
    decide
  refine ⟨scan_total_and_progressive_get_terminates.1 [] 0 0, hprog, ?_⟩
  have := scan_total_and_progressive_get_terminates.2 [43] [] hprog
  simpa using this

/-- Claim C7 (counterexample): on the adversarial buffer `bCycle`, whose
head record's level-1 pointer refers back to itself, `get` with a key
greater than the head's key loops forever: no fuel suffices. -/
theorem get_nonterminating_on_cycle : ¬ GetTerminates bCycle [98] := by
  have hrec : recordAt bCycle 64 = RecResult.ok hCyc := by decide
  have hstep : ∀ fuel, getLoop bCycle [98] fuel hCyc 1 = none := by
    intro fuel
    induction fuel with
    | zero => rfl
    | succ n ih =>
      rw [getLoop_succ]
      have hf : findPtr hCyc.nextLoc 1 = (1, 64) := by decide
      have hguard : ¬((1 : Nat) = 0 ∨ (64 : Nat) = 0) := by omega
      have hcmp : lexCmp [98] (recKey bCycle hCyc) = Ordering.gt := by decide
      simp only [hf, if_neg hguard, hrec, hcmp]
      exact ih
  rintro ⟨fuel, hne⟩
  apply hne
  show getFuel bCycle [98] fuel = none
  unfold getFuel
  rw [show startOffset = 64 from rfl, hrec]
  exact hstep fuel

/-! ### Claim theorems: error handling and safety of `record_at` -/

/-- Claim C2 (`code_bug` evidence): at a record whose framing, bounds and
head checksum are all valid but whose tag byte is `0x78` — not one of the
four recognized values — `record_at` does not return a typed
`UnknownRecordType` error (no such variant exists in `Error`); it hits
the `panic!` in `RecordType::from` and aborts the process. -/
theorem recordAt_unknown_tag_panics :
    recordAt bUnknownTag 0 = RecResult.panicUnknownType 120 := by decide

/-- Claim C3 (`code_bug` evidence): when the record decode fails during
iteration (here with `InvalidLevel`: level byte 32 at offset 64), the
iterator's `unwrap` turns the typed error into a process abort instead of
surfacing it to the caller as an error value. -/
theorem iterNext_decode_failure_panics :
    iterNextF bBadLevel 72 10 64 = some (IterStep.panicDecode Err.invalidLevel) := by decide

/-- Claim C4 (`code_bug` evidence): decoding at offset 0 of the one-byte
buffer `[0x2b]` reads the level byte past the end of the buffer before
any bounds check — an unchecked out-of-bounds access, not a typed
error. -/
theorem recordAt_framing_reads_out_of_bounds :
    recordAt [43] 0 = RecResult.oobRead := by decide

end Twoskip
